import Mathlib

/-!
Verification of `invoke-depends`, an incremental re-execution engine for
Invoke tasks.  The Python modules are shallowly embedded:

* `path_mtime.py` — a process-wide mtime cache over the filesystem.  Here the
  filesystem is an explicit association list `FS` from paths to files, and the
  cache an association list `Cache`.  Only required-mode lookups are modelled
  (`get` with `raising=True`); the repository never calls `get` with
  `raising=False`.
* `fingerprint.py` — argument fingerprinting plus an xattr-backed store.
  `os.getxattr` / `os.setxattr` are modelled by `rawGetxattr` / `rawSetxattr`,
  which can fail (missing path, attribute not present, or an xattr-incapable
  filesystem, recorded per file in `File.xattrOk`); the store's `read` /
  `write` catch those failures exactly as the Python `except OSError` does.
* `mod.py` — the staleness decider `_should_run` and the wrapper
  `Depends.call`.  Python exceptions become `Except` values; the mutable cache
  and filesystem are threaded explicitly.
* `arg_templates.py` — signature binding (`Signature.bind_partial` +
  `apply_defaults`) and `string.Template.safe_substitute` expansion.

Timestamps are natural numbers (`st_mtime_ns`).  Paths are strings.
-/

namespace InvokeDepends

abbrev Path := String

/-- A file on disk: its modification time in nanoseconds, the value of the
`user.depends.hash` extended attribute if set, and whether the filesystem
supports extended attributes for this file. -/
structure File where
  mtime : Nat
  xattr : Option String
  xattrOk : Bool
deriving DecidableEq, Repr

/-- The filesystem, as an association list from paths to files. -/
abbrev FS := List (Path × File)

def findFS (fs : FS) (p : Path) : Option File :=
  match fs with
  | [] => none
  | (q, f) :: rest => if q = p then some f else findFS rest p

/-- `path.stat().st_mtime_ns`, as an optional value (`none` = FileNotFoundError). -/
def mtimeOf (fs : FS) (p : Path) : Option Nat :=
  (findFS fs p).map File.mtime

/-- `path.exists()`. -/
def pathExists (fs : FS) (p : Path) : Bool :=
  (findFS fs p).isSome

/-- Replace the file stored at `p` (first occurrence) by `g` of it; a missing
path is left unchanged. -/
def updateFS (fs : FS) (p : Path) (g : File → File) : FS :=
  match fs with
  | [] => []
  | (q, f) :: rest => if q = p then (q, g f) :: rest else (q, f) :: updateFS rest p g

/-- `path.touch()`: update the mtime of an existing file to the current time,
or create an empty file with that mtime. -/
def touchFS (fs : FS) (p : Path) (now : Nat) : FS :=
  match findFS fs p with
  | some _ => updateFS fs p (fun f => { f with mtime := now })
  | none => fs ++ [(p, { mtime := now, xattr := none, xattrOk := true })]

namespace fingerprint

/-- `os.getxattr(path, XATTR_KEY)`: fails (OSError) when the path is missing,
the filesystem does not support xattrs, or the attribute is not set. -/
def rawGetxattr (fs : FS) (p : Path) : Except Unit String :=
  match findFS fs p with
  | none => .error ()
  | some f =>
    if f.xattrOk then
      match f.xattr with
      | some v => .ok v
      | none => .error ()
    else .error ()

/-- `os.setxattr(path, XATTR_KEY, value)`: fails (OSError) when the path is
missing or the filesystem does not support xattrs. -/
def rawSetxattr (fs : FS) (p : Path) (v : String) : Except Unit FS :=
  match findFS fs p with
  | none => .error ()
  | some f =>
    if f.xattrOk then .ok (updateFS fs p (fun f => { f with xattr := some v }))
    else .error ()

/-- `fingerprint.read`: the stored fingerprint, or `none` on any OSError. -/
def read (fs : FS) (p : Path) : Option String :=
  match rawGetxattr fs p with
  | .ok v => some v
  | .error _ => none

/-- `fingerprint.write`: attach the fingerprint; on any OSError, do nothing. -/
def write (fs : FS) (p : Path) (v : String) : FS :=
  match rawSetxattr fs p v with
  | .ok fs' => fs'
  | .error _ => fs

/-- `fingerprint.verify`: true when the stored fingerprint equals `expected`. -/
def verify (fs : FS) (p : Path) (expected : String) : Bool :=
  read fs p == some expected

end fingerprint

namespace path_mtime

/-- The module-level mtime cache `_cache` (only successful required-mode
lookups are ever stored by this repository's code paths). -/
abbrev Cache := List (Path × Nat)

def lookupC (c : Cache) (p : Path) : Option Nat :=
  match c with
  | [] => none
  | (q, m) :: rest => if q = p then some m else lookupC rest p

/-- `path_mtime.get(path)` in required mode, under `cachetools.cached`: a
cached value is returned as-is; otherwise the filesystem is consulted, a hit
is cached, and a missing path raises FileNotFoundError (nothing is cached). -/
def get (fs : FS) (c : Cache) (p : Path) : Except Unit Nat × Cache :=
  match lookupC c p with
  | some m => (.ok m, c)
  | none =>
    match mtimeOf fs p with
    | some m => (.ok m, (p, m) :: c)
    | none => (.error (), c)

/-- `path_mtime.invalidate`: `_cache.pop(path, None)`. -/
def invalidate (c : Cache) (p : Path) : Cache :=
  c.filter (fun e => e.1 ≠ p)

/-- `path_mtime.is_newer(src, dst) = get(src) > get(dst)`; Python evaluates
`get(src)` first, and a FileNotFoundError in either lookup propagates. -/
def is_newer (fs : FS) (c : Cache) (src dst : Path) : Except Unit Bool × Cache :=
  match get fs c src with
  | (.ok ms, c1) =>
    match get fs c1 dst with
    | (.ok md, c2) => (.ok (ms > md), c2)
    | (.error e, c2) => (.error e, c2)
  | (.error e, c1) => (.error e, c1)

/-- The timestamp a required-mode lookup would produce in cache state `c`:
the cached value if present, the on-disk mtime otherwise. -/
def view (fs : FS) (c : Cache) (p : Path) : Option Nat :=
  match lookupC c p with
  | some m => some m
  | none => mtimeOf fs p

/-- `c'` extends `c` only by lazily populated entries: each path is either
cached exactly as in `c`, or was uncached in `c` and now caches the on-disk
mtime. -/
def LazyExt (fs : FS) (c c' : Cache) : Prop :=
  ∀ p, lookupC c' p = lookupC c p ∨ (lookupC c p = none ∧ lookupC c' p = mtimeOf fs p)

theorem lazyExt_refl (fs : FS) (c : Cache) : LazyExt fs c c :=
  fun _ => Or.inl rfl

theorem lazyExt_trans {fs : FS} {c c' c'' : Cache}
    (h1 : LazyExt fs c c') (h2 : LazyExt fs c' c'') : LazyExt fs c c'' := by
  intro p
  rcases h2 p with h | ⟨hn, he⟩
  · rcases h1 p with h' | ⟨hn', he'⟩
    · exact Or.inl (h.trans h')
    · exact Or.inr ⟨hn', h.trans he'⟩
  · rcases h1 p with h' | ⟨hn', he'⟩
    · exact Or.inr ⟨h' ▸ hn, he⟩
    · exact Or.inr ⟨hn', he⟩

theorem view_eq_of_lazyExt {fs : FS} {c c' : Cache} (h : LazyExt fs c c') (p : Path) :
    view fs c' p = view fs c p := by
  rcases h p with h' | ⟨hn, he⟩
  · simp [view, h']
  · simp only [view, hn, he]
    cases mtimeOf fs p <;> rfl

theorem lookupC_cons (p q : Path) (m : Nat) (c : Cache) :
    lookupC ((p, m) :: c) q = if p = q then some m else lookupC c q := rfl

/-- The result component of `get` is determined by the `view`. -/
theorem get_fst (fs : FS) (c : Cache) (p : Path) :
    (get fs c p).1 = match view fs c p with
      | some m => Except.ok m
      | none => Except.error () := by
  unfold get view
  cases lookupC c p with
  | some m => rfl
  | none => cases mtimeOf fs p <;> rfl

/-- `get` only lazily populates the cache. -/
theorem get_lazyExt (fs : FS) (c : Cache) (p : Path) :
    LazyExt fs c (get fs c p).2 := by
  unfold get
  cases hc : lookupC c p with
  | some m => exact lazyExt_refl fs c
  | none =>
    cases hm : mtimeOf fs p with
    | some m => ?_
    | none => exact lazyExt_refl fs c
    intro q
    by_cases hq : p = q
    · subst hq
      exact Or.inr ⟨hc, by simp [lookupC_cons, hm]⟩
    · exact Or.inl (by simp [lookupC_cons, hq])

/-- The pure meaning of `is_newer` in the initial cache state. -/
def isNewerV (fs : FS) (c : Cache) (src dst : Path) : Except Unit Bool :=
  match view fs c src, view fs c dst with
  | some ms, some md => .ok (ms > md)
  | none, _ => .error ()
  | some _, none => .error ()

theorem view_of_get_ok {fs : FS} {c c1 : Cache} {p : Path} {m : Nat}
    (h : get fs c p = (Except.ok m, c1)) : view fs c p = some m := by
  have h1 := get_fst fs c p
  rw [h] at h1
  simp only at h1
  cases hv : view fs c p with
  | none => rw [hv] at h1; exact absurd h1 (by simp)
  | some m' => rw [hv] at h1; simp at h1; rw [h1]

theorem view_of_get_error {fs : FS} {c c1 : Cache} {p : Path} {e : Unit}
    (h : get fs c p = (Except.error e, c1)) : view fs c p = none := by
  have h1 := get_fst fs c p
  rw [h] at h1
  simp only at h1
  cases hv : view fs c p with
  | none => rfl
  | some m' => rw [hv] at h1; exact absurd h1 (by simp)

theorem lazyExt_of_get {fs : FS} {c c1 : Cache} {p : Path} {r : Except Unit Nat}
    (h : get fs c p = (r, c1)) : LazyExt fs c c1 := by
  have := get_lazyExt fs c p
  rwa [h] at this

theorem is_newer_fst (fs : FS) (c : Cache) (src dst : Path) :
    (is_newer fs c src dst).1 = isNewerV fs c src dst := by
  unfold is_newer
  split
  next ms c1 heq =>
    have hs := view_of_get_ok heq
    have hl := lazyExt_of_get heq
    split
    next md c2 heq2 =>
      have hd := view_of_get_ok heq2
      rw [view_eq_of_lazyExt hl dst] at hd
      simp [isNewerV, hs, hd]
    next e c2 heq2 =>
      have hd := view_of_get_error heq2
      rw [view_eq_of_lazyExt hl dst] at hd
      cases e
      simp [isNewerV, hs, hd]
  next e c1 heq =>
    have hs := view_of_get_error heq
    cases e
    simp [isNewerV, hs]

theorem is_newer_lazyExt (fs : FS) (c : Cache) (src dst : Path) :
    LazyExt fs c (is_newer fs c src dst).2 := by
  unfold is_newer
  split
  next ms c1 heq =>
    have hl := lazyExt_of_get heq
    split
    next md c2 heq2 => exact lazyExt_trans hl (lazyExt_of_get heq2)
    next e c2 heq2 => exact lazyExt_trans hl (lazyExt_of_get heq2)
  next e c1 heq =>
    exact lazyExt_of_get heq

theorem lookupC_invalidate (c : Cache) (p q : Path) :
    lookupC (invalidate c p) q = if q = p then none else lookupC c q := by
  induction c with
  | nil => by_cases h : q = p <;> simp [invalidate, lookupC, h]
  | cons e rest ih =>
    rcases e with ⟨x, m⟩
    by_cases hx : x = p
    · have hstep : invalidate ((x, m) :: rest) p = invalidate rest p := by
        simp [invalidate, List.filter_cons, hx]
      rw [hstep, ih]
      by_cases hq : q = p
      · simp [hq]
      · have hxq : x ≠ q := fun h => hq (by rw [← h, hx])
        simp [lookupC, hxq, hq]
    · have hstep : invalidate ((x, m) :: rest) p = (x, m) :: invalidate rest p := by
        simp [invalidate, List.filter_cons, hx]
      rw [hstep]
      by_cases hxq : x = q
      · subst hxq
        have hqp : ¬(x = p) := hx
        simp [lookupC, hqp]
      · simp [lookupC, hxq, ih]

end path_mtime

namespace mod

open path_mtime

/-- The generator search `next((src for src in inps if is_newer(src, dst)), None)`
in `_should_run`: the first input strictly newer than `dst`, stopping at the
first hit; a FileNotFoundError inside `is_newer` propagates. -/
def findNewer (fs : FS) (c : Cache) (inps : List Path) (dst : Path) :
    Except Unit (Option Path) × Cache :=
  match inps with
  | [] => (.ok none, c)
  | src :: rest =>
    match is_newer fs c src dst with
    | (.ok true, c1) => (.ok (some src), c1)
    | (.ok false, c1) => findNewer fs c1 rest dst
    | (.error e, c1) => (.error e, c1)

/-- The per-output loop of `_should_run` (`for dst in outs: ...`). -/
def shouldRunLoop (fs : FS) (fp : String) (inps : List Path) :
    Cache → List Path → Except Unit (Bool × String) × Cache
  | c, [] => (.ok (false, "up to date"), c)
  | c, dst :: rest =>
    if pathExists fs dst then
      match findNewer fs c inps dst with
      | (.ok (some src), c1) => (.ok (true, dst ++ ": older than " ++ src), c1)
      | (.ok none, c1) =>
        if fingerprint.read fs dst ≠ some fp then
          (.ok (true, dst ++ ": context changed"), c1)
        else shouldRunLoop fs fp inps c1 rest
      | (.error e, c1) => (.error e, c1)
    else (.ok (true, dst ++ ": missing file"), c)

/-- `_should_run(fp, inps, outs)` from `mod.py`, with the filesystem and the
mtime cache made explicit.  The result is the `(should_run, reason)` pair, or
an error for an uncaught FileNotFoundError from `path_mtime.get`. -/
def _should_run (fs : FS) (c : Cache) (fp : String) (inps outs : List Path) :
    Except Unit (Bool × String) × Cache :=
  if outs.isEmpty then (.ok (true, "no outputs given"), c)
  else shouldRunLoop fs fp inps c outs

/-- The pure meaning of `findNewer` over the initial cache's `view`. -/
def findNewerV (fs : FS) (c : Cache) (inps : List Path) (dst : Path) :
    Except Unit (Option Path) :=
  match inps with
  | [] => .ok none
  | src :: rest =>
    match isNewerV fs c src dst with
    | .ok true => .ok (some src)
    | .ok false => findNewerV fs c rest dst
    | .error e => .error e

/-- The three per-output checks of the spec's decision policy (§4.5, steps
2a–2c), evaluated against the initial cache's `view`: the first failing
check's reason, `Except.ok none` when the output passes all checks, an error
when a timestamp lookup would signal NotFound. -/
def checkOutputV (fs : FS) (c : Cache) (fp : String) (inps : List Path) (dst : Path) :
    Except Unit (Option String) :=
  if pathExists fs dst then
    match findNewerV fs c inps dst with
    | .ok (some src) => .ok (some (dst ++ ": older than " ++ src))
    | .ok none =>
      if fingerprint.read fs dst ≠ some fp then .ok (some (dst ++ ": context changed"))
      else .ok none
    | .error e => .error e
  else .ok (some (dst ++ ": missing file"))

/-- The decision policy exactly as the spec states it (§4.5), first match
wins: no outputs → run; otherwise the first output failing one of the three
checks, in declared order, decides; if no output triggers, "up to date". -/
def decideSpec (fs : FS) (c : Cache) (fp : String) (inps outs : List Path) :
    Except Unit (Bool × String) :=
  if outs.isEmpty then .ok (true, "no outputs given")
  else go outs
where
  go : List Path → Except Unit (Bool × String)
    | [] => .ok (false, "up to date")
    | dst :: rest =>
      match checkOutputV fs c fp inps dst with
      | .ok (some reason) => .ok (true, reason)
      | .ok none => go rest
      | .error e => .error e

theorem findNewer_fst (fs : FS) (inps : List Path) (dst : Path) :
    ∀ (c c' : Cache), (∀ p, view fs c' p = view fs c p) →
      (findNewer fs c' inps dst).1 = findNewerV fs c inps dst ∧
      LazyExt fs c' (findNewer fs c' inps dst).2 := by
  induction inps with
  | nil => exact fun c c' _ => ⟨rfl, lazyExt_refl fs c'⟩
  | cons src rest ih =>
    intro c c' hview
    have hfst := is_newer_fst fs c' src dst
    have hlz := is_newer_lazyExt fs c' src dst
    have hVeq : isNewerV fs c' src dst = isNewerV fs c src dst := by
      unfold isNewerV
      rw [hview src, hview dst]
    unfold findNewer findNewerV
    rcases hn : is_newer fs c' src dst with ⟨r, c1⟩
    rw [hn] at hfst hlz
    simp only at hfst hlz
    have hVc : isNewerV fs c src dst = r := by rw [hfst, hVeq]
    rw [hVc]
    cases r with
    | error e => exact ⟨rfl, hlz⟩
    | ok b =>
      cases b with
      | true => exact ⟨rfl, hlz⟩
      | false =>
        have hview1 : ∀ p, view fs c1 p = view fs c p :=
          fun p => (view_eq_of_lazyExt hlz p).trans (hview p)
        have := ih c c1 hview1
        exact ⟨this.1, lazyExt_trans hlz this.2⟩

theorem shouldRunLoop_spec (fs : FS) (fp : String) (inps : List Path) :
    ∀ (outs : List Path) (c c' : Cache), (∀ p, view fs c' p = view fs c p) →
      (shouldRunLoop fs fp inps c' outs).1 = decideSpec.go fs c fp inps outs ∧
      LazyExt fs c' (shouldRunLoop fs fp inps c' outs).2 := by
  intro outs
  induction outs with
  | nil => exact fun c c' _ => ⟨rfl, lazyExt_refl fs c'⟩
  | cons dst rest ih =>
    intro c c' hview
    unfold shouldRunLoop decideSpec.go checkOutputV
    cases hex : pathExists fs dst with
    | false =>
      rw [if_neg Bool.false_ne_true, if_neg Bool.false_ne_true]
      exact ⟨rfl, lazyExt_refl fs c'⟩
    | true =>
      rw [if_pos rfl, if_pos rfl]
      rcases hfn : findNewer fs c' inps dst with ⟨r, c1⟩
      have hspec := findNewer_fst fs inps dst c c' hview
      rw [hfn] at hspec
      simp only at hspec
      rcases hspec with ⟨hfst, hlz⟩
      rw [← hfst]
      cases r with
      | error e => exact ⟨rfl, hlz⟩
      | ok o =>
        cases o with
        | some src => exact ⟨rfl, hlz⟩
        | none =>
          by_cases hfp : fingerprint.read fs dst ≠ some fp
          · simp only [if_pos hfp]
            exact ⟨trivial, hlz⟩
          · simp only [if_neg hfp]
            have hview1 : ∀ p, view fs c1 p = view fs c p :=
              fun p => (view_eq_of_lazyExt hlz p).trans (hview p)
            have := ih c c1 hview1
            exact ⟨this.1, lazyExt_trans hlz this.2⟩

/-- `_should_run` computes exactly the spec's decision, and its only cache
effect is lazy population. -/
theorem should_run_spec (fs : FS) (c : Cache) (fp : String) (inps outs : List Path) :
    (_should_run fs c fp inps outs).1 = decideSpec fs c fp inps outs ∧
    LazyExt fs c (_should_run fs c fp inps outs).2 := by
  unfold _should_run decideSpec
  by_cases h : outs.isEmpty
  · simp only [h, if_true]
    exact ⟨trivial, lazyExt_refl fs c⟩
  · simp only [h, if_false]
    exact shouldRunLoop_spec fs fp inps outs c c (fun _ => rfl)

theorem view_ne_none_of_exists {fs : FS} {c : Cache} {p : Path}
    (h : pathExists fs p = true) : view fs c p ≠ none := by
  unfold view
  cases lookupC c p with
  | some m => simp
  | none =>
    unfold pathExists at h
    unfold mtimeOf
    cases hf : findFS fs p with
    | some f => simp
    | none => rw [hf] at h; simp at h

theorem isNewerV_ok {fs : FS} {c : Cache} {src dst : Path}
    (hsrc : view fs c src ≠ none) (hdst : view fs c dst ≠ none) :
    ∃ b, isNewerV fs c src dst = .ok b := by
  unfold isNewerV
  cases hs : view fs c src with
  | none => exact absurd hs hsrc
  | some ms =>
    cases hd : view fs c dst with
    | none => exact absurd hd hdst
    | some md => exact ⟨ms > md, rfl⟩

theorem findNewerV_ok {fs : FS} {c : Cache} {dst : Path}
    (hdst : view fs c dst ≠ none) :
    ∀ {inps : List Path}, (∀ src ∈ inps, view fs c src ≠ none) →
      ∃ o, findNewerV fs c inps dst = .ok o := by
  intro inps
  induction inps with
  | nil => exact fun _ => ⟨none, rfl⟩
  | cons src rest ih =>
    intro h
    obtain ⟨b, hb⟩ := isNewerV_ok (h src (by simp)) hdst
    have hrest := ih (fun s hs => h s (by simp [hs]))
    unfold findNewerV
    rw [hb]
    cases b with
    | true => exact ⟨some src, rfl⟩
    | false => exact hrest

theorem checkOutputV_ok {fs : FS} {c : Cache} {inps : List Path} (fp : String)
    (dst : Path) (h : ∀ src ∈ inps, view fs c src ≠ none) :
    ∃ o, checkOutputV fs c fp inps dst = .ok o := by
  unfold checkOutputV
  cases hex : pathExists fs dst with
  | false =>
    rw [if_neg Bool.false_ne_true]
    exact ⟨some (dst ++ ": missing file"), rfl⟩
  | true =>
    rw [if_pos rfl]
    obtain ⟨o, ho⟩ := findNewerV_ok (view_ne_none_of_exists hex) h
    rw [ho]
    cases o with
    | some src => exact ⟨some (dst ++ ": older than " ++ src), rfl⟩
    | none =>
      by_cases hfp : fingerprint.read fs dst ≠ some fp
      · rw [if_pos hfp]; exact ⟨some (dst ++ ": context changed"), rfl⟩
      · rw [if_neg hfp]; exact ⟨none, rfl⟩

/-- With every input path available (cached or on disk), the spec decision
never signals NotFound. -/
theorem decideSpec_ok {fs : FS} {c : Cache} {inps : List Path} (fp : String)
    (outs : List Path) (h : ∀ src ∈ inps, view fs c src ≠ none) :
    ∃ b r, decideSpec fs c fp inps outs = .ok (b, r) := by
  unfold decideSpec
  by_cases he : outs.isEmpty
  · rw [if_pos he]; exact ⟨true, "no outputs given", rfl⟩
  · rw [if_neg he]
    clear he
    induction outs with
    | nil => exact ⟨false, "up to date", rfl⟩
    | cons dst rest ih =>
      obtain ⟨o, ho⟩ := checkOutputV_ok fp dst h
      unfold decideSpec.go
      rw [ho]
      cases o with
      | some reason => exact ⟨true, reason, rfl⟩
      | none => exact ih

/-- An output fails the spec's per-output checks: missing, or older than some
input, or carrying a different stored fingerprint. -/
def OutputFails (fs : FS) (c : Cache) (fp : String) (inps : List Path) (dst : Path) : Prop :=
  ∃ s, checkOutputV fs c fp inps dst = .ok (some s)

theorem decideSpec_go_true_iff {fs : FS} {c : Cache} {fp : String} {inps : List Path} :
    ∀ {outs : List Path} {b : Bool} {r : String},
      decideSpec.go fs c fp inps outs = .ok (b, r) →
      (b = true ↔ ∃ dst ∈ outs, OutputFails fs c fp inps dst) := by
  intro outs
  induction outs with
  | nil =>
    intro b r h
    unfold decideSpec.go at h
    simp at h
    constructor
    · intro hb; rw [hb] at h; exact absurd h.1 (by simp)
    · rintro ⟨dst, hmem, _⟩; exact absurd hmem (by simp)
  | cons dst rest ih =>
    intro b r h
    unfold decideSpec.go at h
    cases hc : checkOutputV fs c fp inps dst with
    | error e => rw [hc] at h; exact absurd h (by simp)
    | ok o =>
      rw [hc] at h
      cases o with
      | some reason =>
        simp at h
        constructor
        · intro _; exact ⟨dst, by simp, reason, hc⟩
        · intro _; exact h.1
      | none =>
        have := ih h
        constructor
        · intro hb
          obtain ⟨d, hd, hf⟩ := this.mp hb
          exact ⟨d, by simp [hd], hf⟩
        · rintro ⟨d, hd, hf⟩
          rcases List.mem_cons.mp hd with hd | hd
          · subst hd
            rcases hf with ⟨s, hs⟩
            rw [hc] at hs
            exact absurd hs (by simp)
          · exact this.mpr ⟨d, hd, hf⟩

/-- The spec decision's boolean is true exactly when the output list is empty
or some output fails some check. -/
theorem decideSpec_true_iff {fs : FS} {c : Cache} {fp : String} {inps : List Path}
    {outs : List Path} {b : Bool} {r : String}
    (h : decideSpec fs c fp inps outs = .ok (b, r)) :
    b = true ↔ (outs = [] ∨ ∃ dst ∈ outs, OutputFails fs c fp inps dst) := by
  unfold decideSpec at h
  by_cases he : outs.isEmpty
  · rw [if_pos he] at h
    simp at h
    constructor
    · intro _; exact Or.inl (List.isEmpty_iff.mp he)
    · intro _; exact h.1
  · rw [if_neg he] at h
    have hne : outs ≠ [] := fun hh => he (by simp [hh])
    rw [decideSpec_go_true_iff h]
    constructor
    · exact Or.inr
    · rintro (hh | hh)
      · exact absurd hh hne
      · exact hh

/-- Exceptions that leave `Depends.call`: an uncaught FileNotFoundError from a
required-mode timestamp lookup, or whatever the wrapped body raised. -/
inductive CallErr where
  | notFound : CallErr
  | bodyErr : String → CallErr
deriving DecidableEq, Repr

/-- The body of the per-output bookkeeping loop in `Depends.call`
(`path_mtime.invalidate(dst); fingerprint.write(dst, fp); if touch: dst.touch()`);
the filesystem half.  Cache invalidation is handled alongside in `bookkeep`. -/
def bookkeepStep (touch : Bool) (now : Nat) (fp : String) (fs : FS) (dst : Path) : FS :=
  let fs1 := fingerprint.write fs dst fp
  if touch then touchFS fs1 dst now else fs1

/-- The bookkeeping loop `for dst in outs` of `Depends.call`, run after a
successful body: per output, invalidate its mtime-cache entry, store the
fingerprint, and optionally touch the file. -/
def bookkeep (touch : Bool) (now : Nat) (fp : String) :
    FS → path_mtime.Cache → List Path → FS × path_mtime.Cache
  | fs, c, [] => (fs, c)
  | fs, c, dst :: rest =>
    bookkeep touch now fp (bookkeepStep touch now fp fs dst) (path_mtime.invalidate c dst) rest

/-- `Depends.call`, with the steps that are pure functions of the invocation's
arguments factored into parameters: `inps`/`outs` are the template-expanded
input and output paths and `fp` the argument fingerprint, both computed before
the decision and constant for a fixed argument tuple.  The wrapped body is a
filesystem transformer that returns a value or raises; verbose reporting is
console-only and not modelled.  The wrapper consults `_should_run`, returns
`none` (Python `None`, "no result produced") without running the body when no
run is required, and otherwise runs the body and performs the per-output
bookkeeping. -/
def Depends.call {R : Type} (body : FS → FS × Except String R) (touch : Bool) (now : Nat)
    (fp : String) (inps outs : List Path) (fs : FS) (c : path_mtime.Cache) :
    Except CallErr (Option R) × FS × path_mtime.Cache :=
  match _should_run fs c fp inps outs with
  | (.error _, c1) => (.error .notFound, fs, c1)
  | (.ok (should, _reason), c1) =>
    if should then
      match body fs with
      | (fs1, .error e) => (.error (.bodyErr e), fs1, c1)
      | (fs1, .ok result) =>
        (.ok (some result), bookkeep touch now fp fs1 c1 outs)
    else (.ok none, fs, c1)

theorem findFS_updateFS (fs : FS) (p q : Path) (g : File → File) :
    findFS (updateFS fs p g) q =
      if p = q then (findFS fs q).map g else findFS fs q := by
  induction fs with
  | nil => by_cases h : p = q <;> simp [updateFS, findFS, h]
  | cons e rest ih =>
    rcases e with ⟨x, f⟩
    by_cases hx : x = p
    · subst hx
      by_cases hq : x = q
      · subst hq; simp [updateFS, findFS]
      · have : ¬(x = q) := hq
        simp [updateFS, findFS, this, ih]
    · by_cases hq : x = q
      · subst hq
        have hpq : ¬(p = x) := fun h => hx h.symm
        simp [updateFS, findFS, hx, hpq]
      · simp [updateFS, findFS, hx, hq, ih]

theorem findFS_append (fs fs' : FS) (q : Path) :
    findFS (fs ++ fs') q =
      match findFS fs q with
      | some f => some f
      | none => findFS fs' q := by
  induction fs with
  | nil => simp [findFS]
  | cons e rest ih =>
    rcases e with ⟨x, f⟩
    by_cases hx : x = q <;> simp [findFS, hx, ih]

theorem findFS_touchFS (fs : FS) (p q : Path) (now : Nat) :
    findFS (touchFS fs p now) q =
      if p = q then
        match findFS fs p with
        | some f => some { f with mtime := now }
        | none => some { mtime := now, xattr := none, xattrOk := true }
      else findFS fs q := by
  unfold touchFS
  cases hp : findFS fs p with
  | some f =>
    rw [findFS_updateFS]
    by_cases hq : p = q
    · subst hq; simp [hp]
    · simp [hq]
  | none =>
    rw [findFS_append]
    by_cases hq : p = q
    · subst hq; simp [hp, findFS]
    · cases hfq : findFS fs q with
      | some f => simp [hq]
      | none => simp [findFS, hq]

theorem write_eq_of_missing (fs : FS) (p : Path) (v : String)
    (hp : findFS fs p = none) : fingerprint.write fs p v = fs := by
  unfold fingerprint.write fingerprint.rawSetxattr
  rw [hp]

theorem write_eq_of_noxattr (fs : FS) (p : Path) (v : String) {f : File}
    (hp : findFS fs p = some f) (hok : f.xattrOk = false) :
    fingerprint.write fs p v = fs := by
  unfold fingerprint.write fingerprint.rawSetxattr
  rw [hp]
  simp [hok]

theorem write_eq_of_xattrOk (fs : FS) (p : Path) (v : String) {f : File}
    (hp : findFS fs p = some f) (hok : f.xattrOk = true) :
    fingerprint.write fs p v = updateFS fs p (fun f => { f with xattr := some v }) := by
  unfold fingerprint.write fingerprint.rawSetxattr
  rw [hp]
  simp [hok]

theorem findFS_write (fs : FS) (p q : Path) (v : String) (hq : p ≠ q) :
    findFS (fingerprint.write fs p v) q = findFS fs q := by
  cases hp : findFS fs p with
  | none => rw [write_eq_of_missing fs p v hp]
  | some f =>
    cases hok : f.xattrOk with
    | false => rw [write_eq_of_noxattr fs p v hp hok]
    | true =>
      rw [write_eq_of_xattrOk fs p v hp hok, findFS_updateFS]
      simp [hq]

theorem findFS_write_self (fs : FS) (p : Path) (v : String) {f : File}
    (hp : findFS fs p = some f) (hok : f.xattrOk = true) :
    findFS (fingerprint.write fs p v) p = some { f with xattr := some v } := by
  rw [write_eq_of_xattrOk fs p v hp hok, findFS_updateFS]
  simp [hp]

theorem bookkeepStep_frame (touch : Bool) (now : Nat) (fp : String) (fs : FS)
    (dst q : Path) (hq : dst ≠ q) :
    findFS (bookkeepStep touch now fp fs dst) q = findFS fs q := by
  unfold bookkeepStep
  cases touch with
  | false => simpa using findFS_write fs dst q fp hq
  | true =>
    simp only [if_true]
    rw [findFS_touchFS]
    simp [hq, findFS_write fs dst q fp hq]

theorem bookkeepStep_self (touch : Bool) (now : Nat) (fp : String) (fs : FS)
    (dst : Path) {f : File} (hp : findFS fs dst = some f) (hok : f.xattrOk = true) :
    findFS (bookkeepStep touch now fp fs dst) dst =
      some { mtime := if touch then now else f.mtime, xattr := some fp, xattrOk := f.xattrOk } := by
  unfold bookkeepStep
  have hw := findFS_write_self fs dst fp hp hok
  cases touch with
  | false => simpa using hw
  | true =>
    simp only [if_true]
    rw [findFS_touchFS]
    simp [hw]

theorem bookkeep_frame (touch : Bool) (now : Nat) (fp : String) :
    ∀ (outs : List Path) (fs : FS) (c : path_mtime.Cache) (q : Path), q ∉ outs →
      findFS (bookkeep touch now fp fs c outs).1 q = findFS fs q := by
  intro outs
  induction outs with
  | nil => intro fs c q _; rfl
  | cons dst rest ih =>
    intro fs c q hq
    have hdst : dst ≠ q := fun h => hq (by simp [h])
    have hrest : q ∉ rest := fun h => hq (by simp [h])
    unfold bookkeep
    rw [ih _ _ q hrest, bookkeepStep_frame _ _ _ _ _ _ hdst]

theorem bookkeep_cache (touch : Bool) (now : Nat) (fp : String) :
    ∀ (outs : List Path) (fs : FS) (c : path_mtime.Cache) (q : Path),
      path_mtime.lookupC (bookkeep touch now fp fs c outs).2 q =
        if q ∈ outs then none else path_mtime.lookupC c q := by
  intro outs
  induction outs with
  | nil => intro fs c q; simp [bookkeep]
  | cons dst rest ih =>
    intro fs c q
    unfold bookkeep
    rw [ih]
    by_cases hq : q ∈ rest
    · simp [hq]
    · simp only [hq, if_false]
      rw [path_mtime.lookupC_invalidate]
      by_cases hd : q = dst
      · simp [hd]
      · have : q ∉ dst :: rest := by simp [hd, hq]
        simp [hd, this]

/-- All outputs that exist with xattr support before bookkeeping exist
afterwards carrying the stored fingerprint `fp`. -/
theorem bookkeep_outputs (touch : Bool) (now : Nat) (fp : String) :
    ∀ (outs : List Path) (fs : FS) (c : path_mtime.Cache),
      (∀ dst ∈ outs, ∃ f, findFS fs dst = some f ∧ f.xattrOk = true) →
      ∀ dst ∈ outs, ∃ f, findFS (bookkeep touch now fp fs c outs).1 dst = some f ∧
        f.xattrOk = true ∧ f.xattr = some fp := by
  intro outs
  induction outs with
  | nil => intro fs c _ dst hdst; exact absurd hdst (by simp)
  | cons o rest ih =>
    intro fs c hpre dst hdst
    obtain ⟨fo, hfo, hfok⟩ := hpre o (by simp)
    have hstep := bookkeepStep_self touch now fp fs o hfo hfok
    have hpre' : ∀ d ∈ rest, ∃ f, findFS (bookkeepStep touch now fp fs o) d = some f ∧
        f.xattrOk = true := by
      intro d hd
      by_cases hodst : o = d
      · subst hodst
        exact ⟨_, hstep, hfok⟩
      · obtain ⟨f, hf, hok⟩ := hpre d (by simp [hd])
        rw [bookkeepStep_frame _ _ _ _ _ _ hodst]
        exact ⟨f, hf, hok⟩
    rcases List.mem_cons.mp hdst with hodst | hdst'
    · subst hodst
      by_cases hmem : dst ∈ rest
      · exact ih _ _ hpre' dst hmem
      · unfold bookkeep
        rw [bookkeep_frame _ _ _ _ _ _ _ hmem, hstep]
        exact ⟨_, rfl, hfok, rfl⟩
    · exact ih _ _ hpre' dst hdst'

theorem read_of_file {fs : FS} {p : Path} {f : File} {v : String}
    (hp : findFS fs p = some f) (hok : f.xattrOk = true) (hv : f.xattr = some v) :
    fingerprint.read fs p = some v := by
  unfold fingerprint.read fingerprint.rawGetxattr
  rw [hp]
  simp [hok, hv]

theorem decideSpec_go_all_pass {fs : FS} {c : path_mtime.Cache} {fp : String}
    {inps : List Path} :
    ∀ {outs : List Path}, (∀ dst ∈ outs, checkOutputV fs c fp inps dst = .ok none) →
      decideSpec.go fs c fp inps outs = .ok (false, "up to date") := by
  intro outs
  induction outs with
  | nil => intro _; rfl
  | cons dst rest ih =>
    intro h
    unfold decideSpec.go
    rw [h dst (by simp)]
    exact ih (fun d hd => h d (by simp [hd]))

theorem isNewerV_congr {fs : FS} {c c' : path_mtime.Cache}
    (h : ∀ p, path_mtime.view fs c' p = path_mtime.view fs c p) (src dst : Path) :
    path_mtime.isNewerV fs c' src dst = path_mtime.isNewerV fs c src dst := by
  unfold path_mtime.isNewerV
  rw [h src, h dst]

theorem findNewerV_congr {fs : FS} {c c' : path_mtime.Cache}
    (h : ∀ p, path_mtime.view fs c' p = path_mtime.view fs c p) (dst : Path) :
    ∀ (inps : List Path), findNewerV fs c' inps dst = findNewerV fs c inps dst := by
  intro inps
  induction inps with
  | nil => rfl
  | cons src rest ih =>
    unfold findNewerV
    rw [isNewerV_congr h src dst, ih]

theorem checkOutputV_congr {fs : FS} {c c' : path_mtime.Cache} {fp : String}
    (h : ∀ p, path_mtime.view fs c' p = path_mtime.view fs c p) (inps : List Path)
    (dst : Path) :
    checkOutputV fs c' fp inps dst = checkOutputV fs c fp inps dst := by
  unfold checkOutputV
  rw [findNewerV_congr h dst inps]

theorem decideSpec_congr {fs : FS} {c c' : path_mtime.Cache} {fp : String}
    {inps : List Path} (h : ∀ p, path_mtime.view fs c' p = path_mtime.view fs c p)
    (outs : List Path) :
    decideSpec fs c' fp inps outs = decideSpec fs c fp inps outs := by
  unfold decideSpec
  by_cases he : outs.isEmpty
  · rw [if_pos he, if_pos he]
  · rw [if_neg he, if_neg he]
    clear he
    induction outs with
    | nil => rfl
    | cons dst rest ih =>
      unfold decideSpec.go
      rw [checkOutputV_congr h inps dst, ih]

theorem call_of_skip {R : Type} (body : FS → FS × Except String R)
    (touch : Bool) (now : Nat) (fp reason : String) (inps outs : List Path)
    (fs : FS) (c c1 : path_mtime.Cache)
    (h : _should_run fs c fp inps outs = (Except.ok (false, reason), c1)) :
    Depends.call body touch now fp inps outs fs c = (Except.ok none, fs, c1) := by
  unfold Depends.call
  rw [h]
  rfl

theorem call_of_run {R : Type} {body : FS → FS × Except String R}
    {touch : Bool} {now : Nat} {fp reason : String} {inps outs : List Path}
    {fs fs1 : FS} {c c1 : path_mtime.Cache} {r : R}
    (h : _should_run fs c fp inps outs = (Except.ok (true, reason), c1))
    (hb : body fs = (fs1, Except.ok r)) :
    Depends.call body touch now fp inps outs fs c =
      (Except.ok (some r), bookkeep touch now fp fs1 c1 outs) := by
  unfold Depends.call
  rw [h]
  simp only [if_pos rfl]
  rw [hb]
  simp

theorem call_of_bodyfail {R : Type} {body : FS → FS × Except String R}
    {touch : Bool} {now : Nat} {fp reason e : String} {inps outs : List Path}
    {fs fs1 : FS} {c c1 : path_mtime.Cache}
    (h : _should_run fs c fp inps outs = (Except.ok (true, reason), c1))
    (hb : body fs = (fs1, Except.error e)) :
    Depends.call body touch now fp inps outs fs c =
      (Except.error (CallErr.bodyErr e), fs1, c1) := by
  unfold Depends.call
  rw [h]
  simp only [if_pos rfl]
  rw [hb]
  simp

/-- C1: the staleness decision implements the spec's policy with first match
winning in the fixed order — empty output list, then per output in declared
order: missing output, output older than an input, changed stored
fingerprint, else "up to date" — and must-run is true iff the output list is
empty or some output fails some check. -/
theorem c1_should_run_policy (fs : FS) (c : path_mtime.Cache) (fp : String)
    (inps outs : List Path) (b : Bool) (r : String) (c' : path_mtime.Cache)
    (h : _should_run fs c fp inps outs = (Except.ok (b, r), c')) :
    decideSpec fs c fp inps outs = Except.ok (b, r) ∧
    (b = true ↔ (outs = [] ∨ ∃ dst ∈ outs, OutputFails fs c fp inps dst)) := by
  have hs := (should_run_spec fs c fp inps outs).1
  rw [h] at hs
  simp only at hs
  exact ⟨hs.symm, decideSpec_true_iff hs.symm⟩

/-- Witness for C1: a concrete up-to-date invocation. -/
theorem c1_should_run_policy_witness :
    decideSpec [("out.txt", ⟨5, some "fp0", true⟩), ("in.txt", ⟨3, none, true⟩)]
        [] "fp0" ["in.txt"] ["out.txt"] = Except.ok (false, "up to date") ∧
    ((false : Bool) = true ↔ ((["out.txt"] : List Path) = [] ∨
      ∃ dst ∈ (["out.txt"] : List Path),
        OutputFails [("out.txt", ⟨5, some "fp0", true⟩), ("in.txt", ⟨3, none, true⟩)]
          [] "fp0" ["in.txt"] dst)) :=
  c1_should_run_policy
    [("out.txt", ⟨5, some "fp0", true⟩), ("in.txt", ⟨3, none, true⟩)]
    [] "fp0" ["in.txt"] ["out.txt"] false "up to date"
    [("out.txt", 5), ("in.txt", 3)] (by rfl)

/-- C4 counterexample: with the single output present but the declared input
missing from disk and uncached, evaluating the decision signals NotFound
(FileNotFoundError escapes `_should_run`): input paths are never
existence-checked before the required-mode lookup inside `is_newer`. -/
theorem c4_notFound_reachable :
    (_should_run [("out.txt", ⟨5, some "fp0", true⟩)] [] "fp0"
      ["in.txt"] ["out.txt"]).1 = Except.error () := by rfl

/-- C4 amended: output lookups never signal NotFound (each output's existence
is confirmed before its timestamp is read), and the decision signals no
NotFound at all provided every declared input path is cached or exists on
disk; a missing, uncached input path does surface NotFound. -/
theorem c4_no_notFound_of_inputs_available (fs : FS) (c : path_mtime.Cache)
    (fp : String) (inps outs : List Path)
    (h : ∀ src ∈ inps, path_mtime.view fs c src ≠ none) :
    ∃ b r, (_should_run fs c fp inps outs).1 = Except.ok (b, r) := by
  obtain ⟨b, r, hbr⟩ := decideSpec_ok fp outs h
  exact ⟨b, r, by rw [(should_run_spec fs c fp inps outs).1, hbr]⟩

/-- Witness for C4's amended claim: existing input, missing output. -/
theorem c4_no_notFound_witness :
    ∃ b r, (_should_run [("a.txt", ⟨1, none, true⟩)] [] "f"
      ["a.txt"] ["b.txt"]).1 = Except.ok (b, r) :=
  c4_no_notFound_of_inputs_available [("a.txt", ⟨1, none, true⟩)] [] "f"
    ["a.txt"] ["b.txt"] (by decide)

/-- C5: when the Decider reports that no run is required, the wrapper returns
the skipped result `none` ("no result produced") without invoking the body —
the outcome is identical for every body — and that skipped result is distinct
from `some x` for every value `x` a body could return. -/
theorem c5_skip_result_distinct {R : Type} (touch : Bool) (now : Nat)
    (fp reason : String) (inps outs : List Path) (fs : FS)
    (c c1 : path_mtime.Cache)
    (h : _should_run fs c fp inps outs = (Except.ok (false, reason), c1)) :
    (∀ body : FS → FS × Except String R,
      Depends.call body touch now fp inps outs fs c = (Except.ok none, fs, c1)) ∧
    (∀ x : R, (some x : Option R) ≠ none) :=
  ⟨fun body => call_of_skip body touch now fp reason inps outs fs c c1 h,
   fun _ h' => Option.noConfusion h'⟩

/-- Witness for C5: a concrete up-to-date invocation is skipped. -/
theorem c5_skip_result_distinct_witness :
    (∀ body : FS → FS × Except String Nat,
      Depends.call body false 0 "f" [] ["o"] [("o", ⟨1, some "f", true⟩)] [] =
        (Except.ok none, [("o", ⟨1, some "f", true⟩)], [])) ∧
    (∀ x : Nat, (some x : Option Nat) ≠ none) :=
  c5_skip_result_distinct false 0 "f" "up to date" [] ["o"]
    [("o", ⟨1, some "f", true⟩)] [] [] (by rfl)

/-- C10: a skipped invocation leaves the filesystem entirely unchanged — the
body does not run, no fingerprint metadata is written and no output timestamp
is touched even when touch-outputs is enabled — and the only in-process state
change is lazy population of the mtime cache by the decision's lookups. -/
theorem c10_skip_frame {R : Type} (body : FS → FS × Except String R)
    (touch : Bool) (now : Nat) (fp reason : String) (inps outs : List Path)
    (fs : FS) (c c1 : path_mtime.Cache)
    (h : _should_run fs c fp inps outs = (Except.ok (false, reason), c1)) :
    Depends.call body touch now fp inps outs fs c = (Except.ok none, fs, c1) ∧
    path_mtime.LazyExt fs c c1 := by
  refine ⟨call_of_skip body touch now fp reason inps outs fs c c1 h, ?_⟩
  have hlz := (should_run_spec fs c fp inps outs).2
  rw [h] at hlz
  exact hlz

/-- Witness for C10, with touch-outputs enabled and a populated lookup. -/
theorem c10_skip_frame_witness :
    Depends.call (fun fsx => (fsx, Except.ok (0 : Nat))) true 9 "f" ["i"] ["o"]
        [("i", ⟨1, none, true⟩), ("o", ⟨2, some "f", true⟩)] [] =
      (Except.ok none, [("i", ⟨1, none, true⟩), ("o", ⟨2, some "f", true⟩)],
        [("o", 2), ("i", 1)]) ∧
    path_mtime.LazyExt [("i", ⟨1, none, true⟩), ("o", ⟨2, some "f", true⟩)] []
      [("o", 2), ("i", 1)] :=
  c10_skip_frame (fun fsx => (fsx, Except.ok (0 : Nat))) true 9 "f" "up to date"
    ["i"] ["o"] [("i", ⟨1, none, true⟩), ("o", ⟨2, some "f", true⟩)] []
    [("o", 2), ("i", 1)] (by rfl)

/-- C3: after every successful invocation that ran the body (including with
touch-outputs enabled, `touch` is arbitrary here), each declared output's
mtime-cache entry has been invalidated and not repopulated before the wrapper
returns, so a subsequent required-mode lookup returns the post-write on-disk
timestamp rather than a stale cached value. -/
theorem c3_cache_coherence {R : Type} (body : FS → FS × Except String R)
    (touch : Bool) (now : Nat) (fp : String) (inps outs : List Path)
    (fs fs2 : FS) (c c2 : path_mtime.Cache) (r : R)
    (hcall : Depends.call body touch now fp inps outs fs c = (Except.ok (some r), fs2, c2)) :
    ∀ dst ∈ outs, path_mtime.lookupC c2 dst = none ∧
      ∀ m, mtimeOf fs2 dst = some m → (path_mtime.get fs2 c2 dst).1 = Except.ok m := by
  unfold Depends.call at hcall
  rcases hsr : _should_run fs c fp inps outs with ⟨res, c1⟩
  rw [hsr] at hcall
  cases res with
  | error e => simp at hcall
  | ok br =>
    rcases br with ⟨should, reason⟩
    cases should with
    | false => simp at hcall
    | true =>
      simp only [if_pos rfl] at hcall
      rcases hb : body fs with ⟨fs1, rb⟩
      rw [hb] at hcall
      cases rb with
      | error e => simp at hcall
      | ok result =>
        have hbk : bookkeep touch now fp fs1 c1 outs = (fs2, c2) :=
          congrArg Prod.snd hcall
        intro dst hdst
        have hc : path_mtime.lookupC c2 dst = none := by
          have hce := bookkeep_cache touch now fp outs fs1 c1 dst
          rw [hbk] at hce
          simpa [hdst] using hce
        refine ⟨hc, fun m hm => ?_⟩
        unfold path_mtime.get
        rw [hc, hm]

/-- Witness for C3: the body creates the single output; afterwards its cache
entry is gone and a lookup returns the on-disk mtime. -/
theorem c3_cache_coherence_witness :
    path_mtime.lookupC [] "out.txt" = none ∧
    ∀ m, mtimeOf [("out.txt", ⟨2, some "f", true⟩), ("in.txt", ⟨1, none, true⟩)] "out.txt" = some m →
      (path_mtime.get [("out.txt", ⟨2, some "f", true⟩), ("in.txt", ⟨1, none, true⟩)] [] "out.txt").1 =
        Except.ok m :=
  c3_cache_coherence (fun fsx => (("out.txt", ⟨2, none, true⟩) :: fsx, Except.ok (7 : Nat)))
    false 9 "f" ["in.txt"] ["out.txt"] [("in.txt", ⟨1, none, true⟩)]
    [("out.txt", ⟨2, some "f", true⟩), ("in.txt", ⟨1, none, true⟩)] [] [] 7 (by rfl)
    "out.txt" (by simp)

/-- C8: when the wrapped body raises, the exception propagates to the caller
unchanged and the wrapper performs no output bookkeeping — for a body that
fails without modifying the filesystem, the filesystem (hence every stored
fingerprint) is exactly as before, every previously cached mtime entry
survives uninvalidated — and the next invocation still decides to re-run with
the same reason. -/
theorem c8_body_error_propagates {R : Type} (body : FS → FS × Except String R)
    (touch : Bool) (now : Nat) (fp reason e : String) (inps outs : List Path)
    (fs : FS) (c c1 : path_mtime.Cache)
    (h : _should_run fs c fp inps outs = (Except.ok (true, reason), c1))
    (hb : body fs = (fs, Except.error e)) :
    Depends.call body touch now fp inps outs fs c =
      (Except.error (CallErr.bodyErr e), fs, c1) ∧
    (∀ p m, path_mtime.lookupC c p = some m → path_mtime.lookupC c1 p = some m) ∧
    (_should_run fs c1 fp inps outs).1 = Except.ok (true, reason) := by
  have hlz : path_mtime.LazyExt fs c c1 := by
    have hl := (should_run_spec fs c fp inps outs).2
    rw [h] at hl
    exact hl
  refine ⟨call_of_bodyfail h hb, ?_, ?_⟩
  · intro p m hm
    rcases hlz p with h' | ⟨hn, _⟩
    · rw [h', hm]
    · rw [hn] at hm; exact absurd hm (by simp)
  · have hview := fun p => path_mtime.view_eq_of_lazyExt hlz p
    have h1 := (should_run_spec fs c1 fp inps outs).1
    rw [h1, decideSpec_congr hview outs]
    have h0 := (should_run_spec fs c fp inps outs).1
    rw [h] at h0
    simp only at h0
    exact h0.symm

/-- Witness for C8: a body that raises before writing its missing output. -/
theorem c8_body_error_propagates_witness :
    Depends.call (fun fsx => (fsx, (Except.error "boom" : Except String Nat)))
        false 0 "f" [] ["o"] ([] : FS) [] =
      (Except.error (CallErr.bodyErr "boom"), ([] : FS), []) ∧
    (∀ p m, path_mtime.lookupC [] p = some m → path_mtime.lookupC [] p = some m) ∧
    (_should_run ([] : FS) [] "f" [] ["o"]).1 = Except.ok (true, "o: missing file") :=
  c8_body_error_propagates (fun fsx => (fsx, (Except.error "boom" : Except String Nat)))
    false 0 "f" "o: missing file" "boom" [] ["o"] [] [] [] (by rfl) (by rfl)

theorem findNewerV_all_false {fs : FS} {c : path_mtime.Cache} {dst : Path} :
    ∀ {inps : List Path},
      (∀ src ∈ inps, path_mtime.isNewerV fs c src dst = .ok false) →
      findNewerV fs c inps dst = .ok none := by
  intro inps
  induction inps with
  | nil => intro _; rfl
  | cons src rest ih =>
    intro h
    unfold findNewerV
    rw [h src (by simp)]
    exact ih (fun s hs => h s (by simp [hs]))

/-- C2: idempotence of the wrapper.  A first invocation that ran the body
(`hrun`, `hbody`) and completed its per-output bookkeeping (`hbk`) is
followed — with identical fingerprint, inputs and outputs, and unchanged
files — by an invocation that returns the skipped result and leaves the
filesystem unchanged, whatever body it wraps (the body is not executed).
`hxattr` says the body produced every output on an xattr-capable filesystem;
`hinp` says every input is readable afterwards and no input is newer than any
output. -/
theorem c2_idempotent {R : Type} (body body2 : FS → FS × Except String R)
    (touch : Bool) (now : Nat) (fp reason : String) (inps outs : List Path)
    (fs fs1 fs2 : FS) (c c1 c2 : path_mtime.Cache) (r : R)
    (hne : outs ≠ [])
    (hrun : _should_run fs c fp inps outs = (Except.ok (true, reason), c1))
    (hbody : body fs = (fs1, Except.ok r))
    (hxattr : ∀ dst ∈ outs, ∃ f, findFS fs1 dst = some f ∧ f.xattrOk = true)
    (hbk : bookkeep touch now fp fs1 c1 outs = (fs2, c2))
    (hinp : ∀ src ∈ inps, ∃ ms, path_mtime.view fs2 c2 src = some ms ∧
      ∀ dst ∈ outs, ∀ md, mtimeOf fs2 dst = some md → ms ≤ md) :
    Depends.call body touch now fp inps outs fs c = (Except.ok (some r), fs2, c2) ∧
    Depends.call body2 touch now fp inps outs fs2 c2 =
      (Except.ok none, fs2, (_should_run fs2 c2 fp inps outs).2) := by
  have hfirst : Depends.call body touch now fp inps outs fs c =
      (Except.ok (some r), fs2, c2) := by
    rw [call_of_run hrun hbody, hbk]
  have houts2 := bookkeep_outputs touch now fp outs fs1 c1 hxattr
  rw [hbk] at houts2
  have hcache2 : ∀ dst ∈ outs, path_mtime.lookupC c2 dst = none := by
    intro dst hdst
    have hce := bookkeep_cache touch now fp outs fs1 c1 dst
    rw [hbk] at hce
    simpa [hdst] using hce
  have hpass : ∀ dst ∈ outs, checkOutputV fs2 c2 fp inps dst = .ok none := by
    intro dst hdst
    obtain ⟨f, hf, hok, hfpv⟩ := houts2 dst hdst
    have hex : pathExists fs2 dst = true := by unfold pathExists; rw [hf]; rfl
    have hmt : mtimeOf fs2 dst = some f.mtime := by unfold mtimeOf; rw [hf]; rfl
    have hviewd : path_mtime.view fs2 c2 dst = some f.mtime := by
      unfold path_mtime.view
      rw [hcache2 dst hdst, hmt]
    have hnp : ∀ src ∈ inps, path_mtime.isNewerV fs2 c2 src dst = .ok false := by
      intro src hsrc
      obtain ⟨ms, hms, hle⟩ := hinp src hsrc
      unfold path_mtime.isNewerV
      rw [hms, hviewd]
      have hlt : ¬(ms > f.mtime) := Nat.not_lt.mpr (hle dst hdst f.mtime hmt)
      simp [hlt]
    have hread : fingerprint.read fs2 dst = some fp := read_of_file hf hok hfpv
    unfold checkOutputV
    rw [if_pos hex, findNewerV_all_false hnp, hread]
    simp
  have hempty : outs.isEmpty = false := by
    cases outs with
    | nil => exact absurd rfl hne
    | cons a l => rfl
  have hdec2 : decideSpec fs2 c2 fp inps outs = .ok (false, "up to date") := by
    unfold decideSpec
    rw [hempty, if_neg Bool.false_ne_true]
    exact decideSpec_go_all_pass hpass
  have hfst2 : (_should_run fs2 c2 fp inps outs).1 = Except.ok (false, "up to date") := by
    rw [(should_run_spec fs2 c2 fp inps outs).1, hdec2]
  refine ⟨hfirst, ?_⟩
  rcases hsr2 : _should_run fs2 c2 fp inps outs with ⟨res2, c3⟩
  rw [hsr2] at hfst2
  simp only at hfst2
  subst hfst2
  rw [call_of_skip body2 touch now fp "up to date" inps outs fs2 c2 c3 hsr2]

/-- Witness for C2: create `b.txt` from `a.txt`, then call again. -/
theorem c2_idempotent_witness :
    Depends.call (fun fsx => (("b.txt", ⟨2, none, true⟩) :: fsx, Except.ok (42 : Nat)))
        false 0 "fp0" ["a.txt"] ["b.txt"] [("a.txt", ⟨1, none, true⟩)] [] =
      (Except.ok (some 42),
        [("b.txt", ⟨2, some "fp0", true⟩), ("a.txt", ⟨1, none, true⟩)], []) ∧
    Depends.call (fun fsx => (fsx, Except.ok (0 : Nat))) false 0 "fp0" ["a.txt"] ["b.txt"]
        [("b.txt", ⟨2, some "fp0", true⟩), ("a.txt", ⟨1, none, true⟩)] [] =
      (Except.ok none, [("b.txt", ⟨2, some "fp0", true⟩), ("a.txt", ⟨1, none, true⟩)],
        (_should_run [("b.txt", ⟨2, some "fp0", true⟩), ("a.txt", ⟨1, none, true⟩)] []
          "fp0" ["a.txt"] ["b.txt"]).2) :=
  c2_idempotent
    (fun fsx => (("b.txt", ⟨2, none, true⟩) :: fsx, Except.ok (42 : Nat)))
    (fun fsx => (fsx, Except.ok (0 : Nat)))
    false 0 "fp0" "b.txt: missing file" ["a.txt"] ["b.txt"]
    [("a.txt", ⟨1, none, true⟩)]
    [("b.txt", ⟨2, none, true⟩), ("a.txt", ⟨1, none, true⟩)]
    [("b.txt", ⟨2, some "fp0", true⟩), ("a.txt", ⟨1, none, true⟩)]
    [] [] [] 42
    (by simp)
    (by rfl)
    (by rfl)
    (by
      intro dst hdst
      simp only [List.mem_singleton] at hdst
      subst hdst
      exact ⟨⟨2, none, true⟩, rfl, rfl⟩)
    (by rfl)
    (by
      intro src hsrc
      simp only [List.mem_singleton] at hsrc
      subst hsrc
      refine ⟨1, by rfl, ?_⟩
      intro dst hdst md hmd
      simp only [List.mem_singleton] at hdst
      subst hdst
      have : md = 2 := by
        have hmd' : (some 2 : Option Nat) = some md := by rw [← hmd]; rfl
        exact (Option.some.injEq _ _ ▸ hmd').symm
      omega)

end mod

/-- A Python argument value as the fingerprinter and the template expander
see it: the task-runner's execution context (`invoke.Context`), a string, an
integer, or any other object carried together with its stable `str(...)`
form (which `json.dumps(default=str)` would use). -/
inductive PyVal where
  | ctx : PyVal
  | str : String → PyVal
  | int : Int → PyVal
  | other : String → PyVal
deriving DecidableEq, Repr

/-- `str(value)`, the string form used for template substitution contexts. -/
def pyStr : PyVal → String
  | .ctx => "<invoke.Context object>"
  | .str s => s
  | .int n => toString n
  | .other s => s

namespace fingerprint

/-- C7: the Fingerprint Store never raises to its caller: `read` returns
absent on any OSError (missing path, unsupported filesystem, attribute not
set), `write` is a silent no-op on any OSError, and `verify` returns true
exactly when a stored value was actually retrieved and equals the expected
fingerprint — absence of a stored value is verification failure, not an
error. -/
theorem c7_store_never_raises (fs : FS) (p : Path) (v expected : String) :
    (verify fs p expected = true ↔ read fs p = some expected) ∧
    (∀ e, rawGetxattr fs p = Except.error e → read fs p = none) ∧
    (∀ e, rawSetxattr fs p v = Except.error e → write fs p v = fs) ∧
    (read fs p = none → verify fs p expected = false) := by
  refine ⟨?_, ?_, ?_, ?_⟩
  · unfold verify
    constructor
    · intro h; exact eq_of_beq h
    · intro h; rw [h]; simp
  · intro e he
    unfold read
    rw [he]
  · intro e he
    unfold write
    rw [he]
  · intro h
    unfold verify
    rw [h]
    rfl

/-- JSON string escaping (quote and backslash suffice for the values here). -/
def jsonEscape (s : String) : String :=
  String.mk (s.data.foldr
    (fun ch acc => if ch = '"' ∨ ch = '\\' then '\\' :: ch :: acc else ch :: acc) [])

/-- The JSON form `json.dumps(default=str)` gives one value. -/
def dumpVal : PyVal → String
  | .ctx => "\"<invoke.Context object>\""
  | .str s => "\"" ++ jsonEscape s ++ "\""
  | .int n => toString n
  | .other s => "\"" ++ jsonEscape s ++ "\""

/-- `sort_keys=True`: dictionary entries are emitted in sorted key order. -/
def sortKwargs (kwargs : List (String × PyVal)) : List (String × PyVal) :=
  List.insertionSort (fun a b => a.1 ≤ b.1) kwargs

def dumpEntry (e : String × PyVal) : String :=
  "\"" ++ jsonEscape e.1 ++ "\": " ++ dumpVal e.2

/-- `json.dumps((args, kwargs), default=str, sort_keys=True)`: a two-element
JSON array holding the positional-argument array and the keyword dictionary
with keys sorted. -/
def jsonDumps (args : List PyVal) (kwargs : List (String × PyVal)) : String :=
  "[[" ++ String.intercalate ", " (args.map dumpVal) ++ "], \x7b" ++
    String.intercalate ", " ((sortKwargs kwargs).map dumpEntry) ++ "\x7d]"

/-- SHA-1 modelled as a deterministic digest of the serialized byte string:
the staleness logic relies only on determinism — equal serializations give
byte-identical digests — so the concrete compression function is immaterial
and is replaced by a simple modular fold. -/
def sha1hex (s : String) : String :=
  toString (s.data.foldl (fun h ch => (h * 257 + ch.toNat) % 2 ^ 160) 0)

/-- `if args and isinstance(args[0], invoke.Context): args = args[1:]`. -/
def dropCtx : List PyVal → List PyVal
  | .ctx :: rest => rest
  | args => args

/-- `fingerprint.make(args, kwargs)`: drop a recognizable leading execution
context, then digest the canonical serialization. -/
def make (args : List PyVal) (kwargs : List (String × PyVal)) : String :=
  sha1hex (jsonDumps (dropCtx args) kwargs)

instance : IsTotal (String × PyVal) (fun a b => a.1 ≤ b.1) :=
  ⟨fun a b => le_total a.1 b.1⟩

instance : IsTrans (String × PyVal) (fun a b => a.1 ≤ b.1) :=
  ⟨fun _ _ _ h1 h2 => le_trans h1 h2⟩

instance : IsAntisymm (String × PyVal) (fun a b => a.1 < b.1) :=
  ⟨fun _ _ h1 h2 => absurd h2 (lt_asymm h1)⟩

/-- Sorting by key is insensitive to insertion order when keys are distinct. -/
theorem sortKwargs_perm_eq {k1 k2 : List (String × PyVal)}
    (hperm : k1.Perm k2) (hnodup : (k1.map Prod.fst).Nodup) :
    sortKwargs k1 = sortKwargs k2 := by
  have hs1 := List.sorted_insertionSort (fun a b : String × PyVal => a.1 ≤ b.1) k1
  have hs2 := List.sorted_insertionSort (fun a b : String × PyVal => a.1 ≤ b.1) k2
  have hp : (sortKwargs k1).Perm (sortKwargs k2) :=
    ((List.perm_insertionSort _ k1).trans hperm).trans
      (List.perm_insertionSort _ k2).symm
  have hn1 : ((sortKwargs k1).map Prod.fst).Nodup := by
    have : (sortKwargs k1).Perm k1 := List.perm_insertionSort _ k1
    exact ((this.map Prod.fst).nodup_iff).mpr hnodup
  have hn2 : ((sortKwargs k2).map Prod.fst).Nodup := by
    have hpk : (sortKwargs k2).Perm k1 :=
      (List.perm_insertionSort _ k2).trans hperm.symm
    exact ((hpk.map Prod.fst).nodup_iff).mpr hnodup
  have hstrict : ∀ (l : List (String × PyVal)),
      l.Sorted (fun a b => a.1 ≤ b.1) → (l.map Prod.fst).Nodup →
      l.Sorted (fun a b => a.1 < b.1) := by
    intro l hle hnd
    have hne : l.Pairwise (fun a b => a.1 ≠ b.1) :=
      (List.pairwise_map).mp hnd
    exact (hle.and hne).imp (fun h => lt_of_le_of_ne h.1 h.2)
  exact List.eq_of_perm_of_sorted hp
    (hstrict _ hs1 hn1) (hstrict _ hs2 hn2)

/-- C9: the Argument Fingerprinter is deterministic and canonical: a
recognizable leading execution-context argument is dropped before hashing,
and any two invocations whose remaining positional arguments are equal and
whose keyword arguments are structurally equal up to insertion order (keys
distinct, as in a Python dict) produce byte-identical digest strings. -/
theorem c9_make_canonical (args1 args2 : List PyVal)
    (k1 k2 : List (String × PyVal))
    (hargs : dropCtx args1 = dropCtx args2)
    (hperm : k1.Perm k2) (hnodup : (k1.map Prod.fst).Nodup) :
    make args1 k1 = make args2 k2 := by
  unfold make jsonDumps
  rw [hargs, sortKwargs_perm_eq hperm hnodup]

/-- Witness for C9: the context is dropped and keyword order is immaterial. -/
theorem c9_make_canonical_witness :
    make [PyVal.ctx, PyVal.int 1] [("b", PyVal.int 2), ("a", PyVal.str "x")] =
      make [PyVal.int 1] [("a", PyVal.str "x"), ("b", PyVal.int 2)] :=
  c9_make_canonical [PyVal.ctx, PyVal.int 1] [PyVal.int 1]
    [("b", PyVal.int 2), ("a", PyVal.str "x")]
    [("a", PyVal.str "x"), ("b", PyVal.int 2)]
    (by rfl) (by decide) (by decide)

end fingerprint

namespace arg_templates

/-- A declared parameter of the wrapped function's signature: a name and an
optional default value (the tasks wrapped here declare plain
positional-or-keyword parameters). -/
structure Param where
  name : String
  default : Option PyVal
deriving DecidableEq, Repr

/-- Pair positional arguments with the leading parameters;
`Signature.bind_partial` raises TypeError when there are more positional
arguments than parameters. -/
def bindPositional : List Param → List PyVal → Except String (List (String × PyVal))
  | _, [] => .ok []
  | [], _ :: _ => .error "too many positional arguments"
  | p :: ps, a :: rest =>
    match bindPositional ps rest with
    | .ok l => .ok ((p.name, a) :: l)
    | .error e => .error e

/-- Bind the keyword arguments: a keyword already bound positionally or
naming no declared parameter raises TypeError; anything else binds. -/
def bindKeyword (posNames paramNames : List String) :
    List (String × PyVal) → Except String (List (String × PyVal))
  | [] => .ok []
  | (k, v) :: rest =>
    if k ∈ posNames then .error ("multiple values for argument " ++ k)
    else if k ∈ paramNames then
      match bindKeyword posNames paramNames rest with
      | .ok l => .ok ((k, v) :: l)
      | .error e => .error e
    else .error ("got an unexpected keyword argument " ++ k)

def lookupArg : List (String × PyVal) → String → Option PyVal
  | [], _ => none
  | (k, v) :: rest, n => if k = n then some v else lookupArg rest n

/-- `bound.apply_defaults()`: the bound arguments in signature order; a
parameter not supplied takes its declared default, and a required parameter
not supplied is simply absent. -/
def applyDefaults (params : List Param) (bound : List (String × PyVal)) :
    List (String × PyVal) :=
  params.filterMap (fun p =>
    match lookupArg bound p.name with
    | some v => some (p.name, v)
    | none => p.default.map (fun d => (p.name, d)))

/-- The keyword-binding half of `bind_partial`, given the positional
bindings. -/
def bindPartialKw (params : List Param) (pos : List (String × PyVal))
    (kwargs : List (String × PyVal)) : Except String (List (String × PyVal)) :=
  match bindKeyword (pos.map Prod.fst) (params.map Param.name) kwargs with
  | .error e => .error e
  | .ok kw => .ok (applyDefaults params (pos ++ kw))

/-- `sig.bind_partial(*args, **kwargs)` followed by `apply_defaults()`: a
TypeError from binding propagates; `bind_partial` deliberately permits
missing required parameters. -/
def bind_partial (params : List Param) (args : List PyVal)
    (kwargs : List (String × PyVal)) : Except String (List (String × PyVal)) :=
  match bindPositional params args with
  | .error e => .error e
  | .ok pos => bindPartialKw params pos kwargs

def isIdentStart (ch : Char) : Bool := ch.isAlpha || ch = '_'

def isIdentChar (ch : Char) : Bool := ch.isAlphanum || ch = '_'

def lbrace : Char := Char.ofNat 123

def rbrace : Char := Char.ofNat 125

def lookupCtx : List (String × String) → String → Option String
  | [], _ => none
  | (k, v) :: rest, n => if k = n then some v else lookupCtx rest n

/-- `string.Template.safe_substitute` over the spec's placeholder protocol:
`$$` is an escaped dollar; a braced `$` + `\x7bname\x7d` placeholder is
replaced when `name` is a bound identifier and left untouched otherwise
(including when unbound — safe mode does not fail); any other `$` is left
as-is.  The fuel argument is the remaining input length. -/
def substChars (ctx : List (String × String)) : Nat → List Char → List Char
  | 0, cs => cs
  | _ + 1, [] => []
  | fuel + 1, ch :: cs =>
    if ch = '$' then
      match cs with
      | [] => ['$']
      | d :: rest =>
        if d = '$' then '$' :: substChars ctx fuel rest
        else if d = lbrace then
          let name := rest.takeWhile (fun x => x ≠ rbrace)
          let after := rest.dropWhile (fun x => x ≠ rbrace)
          match after with
          | [] => ch :: substChars ctx fuel cs
          | _ :: afterBrace =>
            if (match name with
                | [] => false
                | n0 :: ns => isIdentStart n0 && ns.all isIdentChar) then
              match lookupCtx ctx (String.mk name) with
              | some v => v.data ++ substChars ctx fuel afterBrace
              | none => ch :: d :: (name ++ rbrace :: substChars ctx fuel afterBrace)
            else ch :: substChars ctx fuel cs
        else ch :: substChars ctx fuel cs
    else ch :: substChars ctx fuel cs

def safe_substitute (ctx : List (String × String)) (s : String) : String :=
  String.mk (substChars ctx s.data.length s.data)

/-- A declared template entry: already a concrete `pathlib.Path`, or a
string template. -/
inductive Pathish where
  | path : String → Pathish
  | str : String → Pathish
deriving DecidableEq, Repr

/-- `arg_templates.expand`: bind the invocation's arguments to the declared
signature (a TypeError from binding propagates), build the substitution
context mapping each bound name to its string form, and expand every
template; `pathlib.Path` entries pass through unchanged. -/
def expand (templates : List Pathish) (args : List PyVal)
    (kwargs : List (String × PyVal)) (params : List Param) :
    Except String (List Path) :=
  match bind_partial params args kwargs with
  | .error e => .error e
  | .ok bound =>
    .ok (templates.map (fun t =>
      match t with
      | .path p => p
      | .str s => safe_substitute (bound.map (fun kv => (kv.1, pyStr kv.2))) s))

/-- C6 counterexample: a missing required parameter is NOT a binding error
here.  With one required parameter `x` and no arguments at all,
`bind_partial` binds nothing (it deliberately permits missing parameters),
`apply_defaults` adds nothing, and expansion succeeds, producing a list of
paths with the placeholder left untouched — no error propagates. -/
theorem c6_missing_required_no_error :
    expand [Pathish.str "out-$\x7bx\x7d.txt"] [] [] [⟨"x", none⟩] =
      Except.ok ["out-$\x7bx\x7d.txt"] := by rfl

theorem bindPositional_error_iff (params : List Param) (args : List PyVal) :
    (∃ e, bindPositional params args = .error e) ↔ params.length < args.length := by
  induction params generalizing args with
  | nil =>
    cases args with
    | nil => simp [bindPositional]
    | cons a rest => simp [bindPositional]
  | cons p ps ih =>
    cases args with
    | nil => simp [bindPositional]
    | cons a rest =>
      unfold bindPositional
      constructor
      · rintro ⟨e, he⟩
        cases h : bindPositional ps rest with
        | ok l => rw [h] at he; simp at he
        | error e' =>
          have hlt : ps.length < rest.length := (ih rest).mp ⟨e', h⟩
          simpa using Nat.succ_lt_succ hlt
      · intro hlt
        have hlt' : ps.length < rest.length := by simpa using hlt
        obtain ⟨e, he⟩ := (ih rest).mpr hlt'
        rw [he]
        exact ⟨e, rfl⟩

theorem bindPositional_names (params : List Param) (args : List PyVal)
    (l : List (String × PyVal)) (h : bindPositional params args = .ok l) :
    l.map Prod.fst = (params.map Param.name).take args.length := by
  induction params generalizing args l with
  | nil =>
    cases args with
    | nil =>
      unfold bindPositional at h
      simp at h
      subst h
      simp
    | cons a rest => unfold bindPositional at h; simp at h
  | cons p ps ih =>
    cases args with
    | nil =>
      unfold bindPositional at h
      simp at h
      subst h
      simp
    | cons a rest =>
      unfold bindPositional at h
      cases hr : bindPositional ps rest with
      | error e => rw [hr] at h; simp at h
      | ok l' =>
        rw [hr] at h
        simp at h
        subst h
        simp [ih rest l' hr]

theorem bindKeyword_error_iff (posNames paramNames : List String)
    (kwargs : List (String × PyVal)) :
    (∃ e, bindKeyword posNames paramNames kwargs = .error e) ↔
      ∃ kv ∈ kwargs, kv.1 ∈ posNames ∨ kv.1 ∉ paramNames := by
  induction kwargs with
  | nil => simp [bindKeyword]
  | cons kv rest ih =>
    rcases kv with ⟨k, v⟩
    unfold bindKeyword
    by_cases hpos : k ∈ posNames
    · rw [if_pos hpos]
      constructor
      · intro _; exact ⟨(k, v), by simp, Or.inl hpos⟩
      · intro _; exact ⟨_, rfl⟩
    · rw [if_neg hpos]
      by_cases hpar : k ∈ paramNames
      · rw [if_pos hpar]
        constructor
        · rintro ⟨e, he⟩
          cases hr : bindKeyword posNames paramNames rest with
          | ok l => rw [hr] at he; simp at he
          | error e' =>
            obtain ⟨kv', hkv', hor⟩ := ih.mp ⟨e', hr⟩
            exact ⟨kv', by simp [hkv'], hor⟩
        · rintro ⟨kv', hkv', hor⟩
          rcases List.mem_cons.mp hkv' with heq | hmem
          · subst heq
            rcases hor with h | h
            · exact absurd h hpos
            · exact absurd hpar h
          · obtain ⟨e, he⟩ := ih.mpr ⟨kv', hmem, hor⟩
            rw [he]
            exact ⟨e, rfl⟩
      · rw [if_neg hpar]
        constructor
        · intro _; exact ⟨(k, v), by simp, Or.inr hpar⟩
        · intro _; exact ⟨_, rfl⟩

theorem bind_partial_error_iff (params : List Param) (args : List PyVal)
    (kwargs : List (String × PyVal)) :
    (∃ e, bind_partial params args kwargs = .error e) ↔
      (params.length < args.length ∨
        ∃ kv ∈ kwargs, kv.1 ∈ (params.map Param.name).take args.length ∨
          kv.1 ∉ params.map Param.name) := by
  cases hp : bindPositional params args with
  | error e =>
    have hbp : bind_partial params args kwargs = .error e := by
      unfold bind_partial
      rw [hp]
    rw [hbp]
    constructor
    · intro _; exact Or.inl ((bindPositional_error_iff params args).mp ⟨e, hp⟩)
    · intro _; exact ⟨e, rfl⟩
  | ok pos =>
    have hbp : bind_partial params args kwargs = bindPartialKw params pos kwargs := by
      unfold bind_partial
      rw [hp]
    rw [hbp]
    have hnames := bindPositional_names params args pos hp
    have hnoerr : ¬ params.length < args.length := by
      intro hlt
      obtain ⟨e, he⟩ := (bindPositional_error_iff params args).mpr hlt
      rw [hp] at he
      exact Except.noConfusion he
    unfold bindPartialKw
    cases hk : bindKeyword (pos.map Prod.fst) (params.map Param.name) kwargs with
    | error e =>
      constructor
      · intro _
        refine Or.inr ?_
        have hh := (bindKeyword_error_iff _ _ kwargs).mp ⟨e, hk⟩
        rwa [hnames] at hh
      · intro _; exact ⟨e, rfl⟩
    | ok kw =>
      constructor
      · rintro ⟨e, he⟩
        simp at he
      · rintro (hlt | hkv)
        · exact absurd hlt hnoerr
        · rw [← hnames] at hkv
          obtain ⟨e, he⟩ := (bindKeyword_error_iff _ _ kwargs).mpr hkv
          rw [hk] at he
          exact Except.noConfusion he

/-- C6 amended: path-template expansion signals a binding error, which
propagates to the caller, exactly when the invocation's arguments cannot be
bound to the signature even partially — more positional arguments than
declared parameters, or a keyword argument that names no declared parameter
or a parameter already bound positionally.  A missing required parameter is
not a binding error: expansion then succeeds and the parameter's placeholder
passes through unexpanded. -/
theorem c6_binding_error_characterization (params : List Param)
    (args : List PyVal) (kwargs : List (String × PyVal))
    (templates : List Pathish) :
    (∃ e, expand templates args kwargs params = .error e) ↔
      (params.length < args.length ∨
        ∃ kv ∈ kwargs, kv.1 ∈ (params.map Param.name).take args.length ∨
          kv.1 ∉ params.map Param.name) := by
  rw [← bind_partial_error_iff params args kwargs]
  unfold expand
  cases hb : bind_partial params args kwargs with
  | error e =>
    constructor
    · intro _; exact ⟨e, rfl⟩
    · intro _; exact ⟨e, rfl⟩
  | ok bound =>
    constructor
    · rintro ⟨e, he⟩; simp at he
    · rintro ⟨e, he⟩; simp at he

end arg_templates

end InvokeDepends
